import Mathlib

/-!
Shallow embedding of src/secretfile.rs (the credentials crate): the
Secretfile line parser and its environment-variable interpolator, together
with theorems checking the specification's statements about them.

Modelling conventions:
- The process environment (std::env::var) is a partial map String to
  Option String; an Err lookup result is none.
- The input stream is modelled as the list of its lines, as produced by
  BufRead::lines (lines carry no newline terminator), and io errors are
  out of scope.
- The two regular expressions of the source are embedded as deterministic
  scanners that realize their leftmost-first match semantics, derived
  clause by clause from the patterns.
-/

namespace Credentials

/-- The process environment: a partial map from variable names to values. -/
abbrev Env : Type := String → Option String

/-- Character class [a-zA-Z_], the first character of a reference name in
the interpolation pattern. Char.isAlpha on Lean chars is exactly [a-zA-Z]. -/
def isIdentStart (c : Char) : Bool := c.isAlpha || c = '_'

/-- Character class [a-zA-Z0-9_], the later characters of a reference name. -/
def isIdentChar (c : Char) : Bool := c.isAlphanum || c = '_'

/-- Whitespace as matched by the regex whitespace class on the ASCII inputs
this file processes. -/
def isWs (c : Char) : Bool :=
  c = ' ' || c = '\t' || c = '\n' || c = '\r' || c = '\x0b' || c = '\x0c'

/-- The maximal leading run of identifier characters, with the rest of the
input (the greedy repetition of the identifier character class). -/
def identRun : List Char → List Char × List Char
  | [] => ([], [])
  | c :: cs =>
    if isIdentChar c then
      let r := identRun cs
      (c :: r.1, r.2)
    else ([], c :: cs)

/-- After a dollar sign, try to match the remainder of a reference: the bare
form (an identifier) is tried first, then the braced form (an identifier
between braces), mirroring the pattern alternation. Returns the captured
name and the input following the whole match. -/
def matchRef : List Char → Option (List Char × List Char)
  | [] => none
  | c :: cs =>
    if isIdentStart c then
      let r := identRun cs
      some (c :: r.1, r.2)
    else if c = '{' then
      match cs with
      | [] => none
      | d :: ds =>
        if isIdentStart d then
          let r := identRun ds
          match r.2 with
          | '}' :: rest => some (d :: r.1, rest)
          | _ => none
        else none
    else none

/-- One token of the interpolation scan: a literal character passed through
unchanged, or a matched environment-variable reference. -/
inductive Tok
  | lit (c : Char)
  | ref (name : String)
deriving DecidableEq

/-- The left-to-right non-overlapping match scan of replace_all: at a dollar
sign beginning a valid reference the whole reference is consumed, at any
other character the scanner advances one position. Fuel bounds the
recursion; callers pass the input length, which always suffices because
every step consumes at least one character. -/
def scanRefs : Nat → List Char → List Tok
  | _, [] => []
  | 0, _ :: _ => []
  | fuel + 1, c :: cs =>
    if c = '$' then
      match matchRef cs with
      | some r => .ref (String.mk r.1) :: scanRefs fuel r.2
      | none => .lit '$' :: scanRefs fuel cs
    else .lit c :: scanRefs fuel cs

/-- The replacement pass of replace_all together with the closure's mutable
undefined_env_var register, threaded left to right: a defined reference
substitutes its value verbatim, an undefined reference substitutes the
empty string and overwrites the register with its name. -/
def replaceAll (env : Env) : List Tok → Option String → List Char × Option String
  | [], acc => ([], acc)
  | .lit c :: rest, acc =>
    let r := replaceAll env rest acc
    (c :: r.1, r.2)
  | .ref n :: rest, acc =>
    match env n with
    | some v =>
      let r := replaceAll env rest acc
      (v.data ++ r.1, r.2)
    | none => replaceAll env rest (some n)

/-- The two error shapes produced by the source, carrying the data put into
their formatted messages. -/
inductive SfError
  | undefinedVar (name : String)
  | malformedLine (line : String)
deriving DecidableEq

/-- The message text each error is formatted with in the source. -/
def SfError.message : SfError → String
  | .undefinedVar n => "Secretfile: Environment variable " ++ n ++ " is not defined"
  | .malformedLine l => "Error parsing Secretfile line: " ++ l

/-- interpolate_env_vars from the source: scan the text for references,
perform all replacements, then fail if the undefined-variable register was
written, reporting the name it holds. -/
def interpolate_env_vars (env : Env) (text : String) : Except SfError String :=
  let r := replaceAll env (scanRefs text.data.length text.data) none
  match r.2 with
  | none => .ok (String.mk r.1)
  | some var => .error (.undefinedVar var)

/-- Stated from the spec's words, for comparison with the code: the names of
the undefined references of a token list in left-to-right scan order. -/
def undefinedNames (env : Env) (toks : List Tok) : List String :=
  toks.filterMap fun t =>
    match t with
    | .ref n => match env n with | none => some n | some _ => none
    | .lit _ => none

/-- The undefined references of a text, in order of encounter. -/
def undefinedRefList (env : Env) (text : String) : List String :=
  undefinedNames env (scanRefs text.data.length text.data)

/-- Whether a scan token is a matched reference. -/
def isRefTok : Tok → Bool
  | .ref _ => true
  | .lit _ => false

/-- Whether the interpolation scanner finds any reference in the string. -/
def hasEnvRef (s : String) : Bool :=
  (scanRefs s.data.length s.data).any isRefTok

/-- The identifier grammar of a reference name: nonempty, leading character
in [a-zA-Z_], remaining characters in [a-zA-Z0-9_]. -/
def isIdentName (s : String) : Bool :=
  match s.data with
  | [] => false
  | c :: cs => isIdentStart c && cs.all isIdentChar

/-- Secret locations; the source currently has exactly the keyed form. -/
inductive Location
  | Keyed (path : String) (key : String)
deriving DecidableEq

/-- First alternative of the line pattern: optional whitespace followed by
either the end of the line or a comment introduced by a hash character. -/
def isBlankOrComment : List Char → Bool
  | [] => true
  | c :: cs => if isWs c then isBlankOrComment cs else c = '#'

/-- Search for the first colon of the list that is followed by at least one
further character, returning the part before it and the nonempty remainder
after it. A colon as the very last character cannot separate a path from a
nonempty key and no colon can follow it, so the search fails there. -/
def splitColon : List Char → Option (List Char × List Char)
  | [] => none
  | c :: cs =>
    if c = ':' then
      if cs.isEmpty then none else some ([], cs)
    else
      (splitColon cs).map fun r => (c :: r.1, r.2)

/-- The lazy path match of the entry pattern applied to the second token of
the line: the path is the shortest nonempty prefix of the token followed by
a colon and a nonempty key, and the greedy key match takes the whole rest
of the token. -/
def splitTok : List Char → Option (List Char × List Char)
  | [] => none
  | c :: cs => (splitColon cs).map fun r => (c :: r.1, r.2)

/-- Second alternative of the line pattern: a nonempty non-whitespace name,
nonempty whitespace, a non-whitespace token split into path and key at a
colon, and nothing but whitespace afterwards. -/
def matchEntry (l : List Char) : Option (String × String × String) :=
  let s1 := l.span fun c => !isWs c
  if s1.1.isEmpty then none
  else
    let s2 := s1.2.span isWs
    if s2.1.isEmpty then none
    else
      let s3 := s2.2.span fun c => !isWs c
      if s3.1.isEmpty then none
      else if s3.2.all isWs then
        match splitTok s3.1 with
        | some r => some (String.mk s1.1, String.mk r.1, String.mk r.2)
        | none => none
      else none

/-- The classification a line receives from the anchored line pattern, with
the blank-or-comment alternative tried first as in the pattern. -/
inductive LineMatch
  | blank
  | entry (name path key : String)
  | noMatch
deriving DecidableEq

/-- Match one line against the line pattern. -/
def matchLine (line : String) : LineMatch :=
  if isBlankOrComment line.data then .blank
  else
    match matchEntry line.data with
    | some r => .entry r.1 r.2.1 r.2.2
    | none => .noMatch

/-- The parsed Secretfile: a map from credential name to location, modelled
extensionally (the source uses an ordered map; only lookup is observable). -/
structure Secretfile where
  mappings : String → Option Location

/-- Lookup, as in the source. -/
def Secretfile.get (sf : Secretfile) (name : String) : Option Location :=
  sf.mappings name

/-- Map insertion: overwrite any prior entry under the same key, as the
source's ordered-map insert does. -/
def insertMapping (m : String → Option Location) (k : String) (v : Location) :
    String → Option Location :=
  fun x => if x = k then some v else m x

/-- The line loop of Secretfile::read: process each line in order, stopping
with the first error. -/
def readFrom (env : Env) : List String → Secretfile → Except SfError Secretfile
  | [], sf => .ok sf
  | line :: rest, sf =>
    match matchLine line with
    | .blank => readFrom env rest sf
    | .entry n p k =>
      match interpolate_env_vars env p with
      | .ok ip => readFrom env rest ⟨insertMapping sf.mappings n (.Keyed ip k)⟩
      | .error e => .error e
    | .noMatch => .error (.malformedLine line)

/-- Secretfile::read, with the input stream already split into lines. -/
def Secretfile.read (lines : List String) (env : Env) : Except SfError Secretfile :=
  readFrom env lines ⟨fun _ => none⟩

/-- A line that processes without error: blank or comment, or an entry whose
path interpolates successfully. -/
def lineOk (env : Env) (l : String) : Bool :=
  match matchLine l with
  | .blank => true
  | .noMatch => false
  | .entry _ p _ =>
    match interpolate_env_vars env p with
    | .ok _ => true
    | .error _ => false

/-- The name an entry line declares, if the line is an entry. -/
def entryName (l : String) : Option String :=
  match matchLine l with
  | .entry n _ _ => some n
  | _ => none

/-- The error a line produces when processed, if any. -/
def lineErr (env : Env) (l : String) : Option SfError :=
  match matchLine l with
  | .blank => none
  | .noMatch => some (.malformedLine l)
  | .entry _ p _ =>
    match interpolate_env_vars env p with
    | .ok _ => none
    | .error e => some e

/-- The effect of one successfully processed line on the mapping. -/
def applyLine (env : Env) (m : String → Option Location) (l : String) :
    String → Option Location :=
  match matchLine l with
  | .entry n p k =>
    match interpolate_env_vars env p with
    | .ok ip => insertMapping m n (.Keyed ip k)
    | .error _ => m
  | _ => m

/-! ## Helper lemmas about strings and lists -/

theorem string_mk_data (s : String) : String.mk s.data = s := by
  cases s
  rfl

theorem string_data_append (a b : String) : (a ++ b).data = a.data ++ b.data := by
  cases a
  cases b
  rfl

theorem getLast?_cons_match {α : Type} (a : α) (l : List α) :
    (a :: l).getLast? =
      match l.getLast? with
      | some m => some m
      | none => some a := by
  induction l generalizing a with
  | nil => rfl
  | cons b bs ih =>
    rw [List.getLast?_cons_cons, ih b]
    cases hbs : bs.getLast? <;> rfl

/-! ## Helper lemmas about the interpolation scanner -/

theorem identRun_all (l : List Char) (h : ∀ c ∈ l, isIdentChar c = true) :
    identRun l = (l, []) := by
  induction l with
  | nil => rfl
  | cons c cs ih =>
    have hc : isIdentChar c = true := h c (by simp)
    have hcs := ih fun x hx => h x (by simp [hx])
    simp [identRun, hc, hcs]

theorem identRun_stop (l : List Char) (d : Char) (m : List Char)
    (h : ∀ c ∈ l, isIdentChar c = true) (hd : isIdentChar d = false) :
    identRun (l ++ d :: m) = (l, d :: m) := by
  induction l with
  | nil => simp [identRun, hd]
  | cons c cs ih =>
    have hc : isIdentChar c = true := h c (by simp)
    have hcs := ih fun x hx => h x (by simp [hx])
    simp [identRun, hc, hcs]

theorem matchRef_bare (c : Char) (cs : List Char)
    (hc : isIdentStart c = true) (hall : ∀ x ∈ cs, isIdentChar x = true) :
    matchRef (c :: cs) = some (c :: cs, []) := by
  simp [matchRef, hc, identRun_all cs hall]

theorem matchRef_braced (c : Char) (cs : List Char)
    (hc : isIdentStart c = true) (hall : ∀ x ∈ cs, isIdentChar x = true) :
    matchRef ('{' :: c :: (cs ++ ['}'])) = some (c :: cs, []) := by
  have hbr : isIdentStart '{' = false := by decide
  have hcl : isIdentChar '}' = false := by decide
  simp [matchRef, hbr, hc, identRun_stop cs '}' [] hall hcl]

theorem replaceAll_snd (env : Env) (toks : List Tok) (acc : Option String) :
    (replaceAll env toks acc).2 =
      match (undefinedNames env toks).getLast? with
      | some n => some n
      | none => acc := by
  induction toks generalizing acc with
  | nil => rfl
  | cons t rest ih =>
    cases t with
    | lit c =>
      have hnames : undefinedNames env (.lit c :: rest) = undefinedNames env rest := by
        simp [undefinedNames]
      rw [hnames]
      simpa [replaceAll] using ih acc
    | ref n =>
      cases hn : env n with
      | some v =>
        have hnames : undefinedNames env (.ref n :: rest) = undefinedNames env rest := by
          simp [undefinedNames, hn]
        rw [hnames]
        simpa [replaceAll, hn] using ih acc
      | none =>
        have hnames :
            undefinedNames env (.ref n :: rest) = n :: undefinedNames env rest := by
          simp [undefinedNames, hn]
        rw [hnames, getLast?_cons_match]
        have hr : (replaceAll env (.ref n :: rest) acc).2 =
            (replaceAll env rest (some n)).2 := by
          simp [replaceAll, hn]
        rw [hr, ih (some n)]
        cases hrest : (undefinedNames env rest).getLast? <;> rfl

theorem scanRefs_no_ref :
    ∀ (f : Nat) (cs : List Char), cs.length ≤ f →
      (scanRefs f cs).any isRefTok = false → scanRefs f cs = cs.map .lit := by
  intro f
  induction f with
  | zero =>
    intro cs hlen _
    have : cs = [] := List.length_eq_zero.mp (Nat.le_zero.mp hlen)
    subst this
    rfl
  | succ f ih =>
    intro cs hlen hany
    cases cs with
    | nil => rfl
    | cons c cs' =>
      have hlen' : cs'.length ≤ f := Nat.le_of_succ_le_succ (by simpa using hlen)
      by_cases hc : c = '$'
      · subst hc
        cases hm : matchRef cs' with
        | some r =>
          have hstep : scanRefs (f + 1) ('$' :: cs') =
              .ref (String.mk r.1) :: scanRefs f r.2 := by
            simp [scanRefs, hm]
          rw [hstep] at hany
          simp [isRefTok] at hany
        | none =>
          have hstep : scanRefs (f + 1) ('$' :: cs') = .lit '$' :: scanRefs f cs' := by
            simp [scanRefs, hm]
          rw [hstep] at hany ⊢
          simp only [List.any_cons, Bool.or_eq_false_iff] at hany
          rw [ih cs' hlen' hany.2]
          rfl
      · have hstep : scanRefs (f + 1) (c :: cs') = .lit c :: scanRefs f cs' := by
          simp [scanRefs, hc]
        rw [hstep] at hany ⊢
        simp only [List.any_cons, Bool.or_eq_false_iff] at hany
        rw [ih cs' hlen' hany.2]
        rfl

theorem replaceAll_map_lit (env : Env) :
    ∀ (cs : List Char) (acc : Option String),
      replaceAll env (cs.map .lit) acc = (cs, acc) := by
  intro cs
  induction cs with
  | nil => intro acc; rfl
  | cons c cs' ih =>
    intro acc
    simp [replaceAll, ih acc]

theorem identRun_snd_length (l : List Char) : (identRun l).2.length ≤ l.length := by
  induction l with
  | nil => simp [identRun]
  | cons c cs ih =>
    by_cases hc : isIdentChar c = true
    · have h : identRun (c :: cs) = (c :: (identRun cs).1, (identRun cs).2) := by
        simp [identRun, hc]
      rw [h]
      exact Nat.le_trans ih (Nat.le_succ _)
    · have h : identRun (c :: cs) = ([], c :: cs) := by
        simp [identRun, hc]
      rw [h]

/-- A matched reference consumes at least one character of the input. -/
theorem matchRef_rest_length (cs nm rest : List Char)
    (h : matchRef cs = some (nm, rest)) : rest.length < cs.length := by
  cases cs with
  | nil => exact absurd h (by simp [matchRef])
  | cons c cs' =>
    by_cases hc : isIdentStart c = true
    · have heq : matchRef (c :: cs') = some (c :: (identRun cs').1, (identRun cs').2) := by
        simp [matchRef, hc]
      rw [heq] at h
      simp only [Option.some.injEq, Prod.mk.injEq] at h
      obtain ⟨-, h2⟩ := h
      subst h2
      have := identRun_snd_length cs'
      simp only [List.length_cons]
      omega
    · by_cases hb : c = '{'
      · subst hb
        cases cs' with
        | nil => exact absurd h (by simp [matchRef, hc])
        | cons d ds =>
          by_cases hd : isIdentStart d = true
          · cases hr2 : (identRun ds).2 with
            | nil => exact absurd h (by simp [matchRef, hc, hd, hr2])
            | cons e r2 =>
              by_cases he : e = '}'
              · subst he
                have heq : matchRef ('{' :: d :: ds) = some (d :: (identRun ds).1, r2) := by
                  simp [matchRef, hc, hd, hr2]
                rw [heq] at h
                simp only [Option.some.injEq, Prod.mk.injEq] at h
                obtain ⟨-, h2⟩ := h
                subst h2
                have hlen := identRun_snd_length ds
                rw [hr2] at hlen
                simp only [List.length_cons] at hlen ⊢
                omega
              · exact absurd h (by simp [matchRef, hc, hd, hr2, he])
          · exact absurd h (by simp [matchRef, hc, hd])
      · exact absurd h (by simp [matchRef, hc, hb])

/-- The scan is independent of the fuel as long as the fuel is at least the
input length (each step consumes at least one character). -/
theorem scanRefs_fuel_irrel :
    ∀ (f g : Nat) (cs : List Char), cs.length ≤ f → cs.length ≤ g →
      scanRefs f cs = scanRefs g cs := by
  intro f
  induction f with
  | zero =>
    intro g cs hf _
    have : cs = [] := List.length_eq_zero.mp (Nat.le_zero.mp hf)
    subst this
    cases g <;> rfl
  | succ f ih =>
    intro g cs hf hg
    cases cs with
    | nil => cases g <;> rfl
    | cons c cs' =>
      cases g with
      | zero => exact absurd hg (by simp)
      | succ g' =>
        have hf' : cs'.length ≤ f := by simpa using hf
        have hg' : cs'.length ≤ g' := by simpa using hg
        by_cases hc : c = '$'
        · subst hc
          cases hm : matchRef cs' with
          | some r =>
            have hlt : r.2.length < cs'.length := matchRef_rest_length cs' r.1 r.2 (by rw [hm])
            have hstep1 : scanRefs (f + 1) ('$' :: cs') =
                .ref (String.mk r.1) :: scanRefs f r.2 := by
              simp [scanRefs, hm]
            have hstep2 : scanRefs (g' + 1) ('$' :: cs') =
                .ref (String.mk r.1) :: scanRefs g' r.2 := by
              simp [scanRefs, hm]
            rw [hstep1, hstep2, ih g' r.2 (by omega) (by omega)]
          | none =>
            have hstep1 : scanRefs (f + 1) ('$' :: cs') = .lit '$' :: scanRefs f cs' := by
              simp [scanRefs, hm]
            have hstep2 : scanRefs (g' + 1) ('$' :: cs') = .lit '$' :: scanRefs g' cs' := by
              simp [scanRefs, hm]
            rw [hstep1, hstep2, ih g' cs' hf' hg']
        · have hstep1 : scanRefs (f + 1) (c :: cs') = .lit c :: scanRefs f cs' := by
            simp [scanRefs, hc]
          have hstep2 : scanRefs (g' + 1) (c :: cs') = .lit c :: scanRefs g' cs' := by
            simp [scanRefs, hc]
          rw [hstep1, hstep2, ih g' cs' hf' hg']

/-- interpolate_env_vars written without its let binding. -/
theorem interpolate_eq (env : Env) (text : String) :
    interpolate_env_vars env text =
      match (replaceAll env (scanRefs text.data.length text.data) none).2 with
      | none => .ok (String.mk (replaceAll env (scanRefs text.data.length text.data) none).1)
      | some v => .error (.undefinedVar v) := rfl

/-- One scan step peeled off the front of an interpolation: if the scan of
the whole text is one token followed by the scan of a remainder text, and
that token contributes the output prefix pref without touching the
undefined-variable register, then interpolating the whole text prepends
pref to the interpolation of the remainder and fails exactly when the
remainder does, with the same error. -/
theorem interpolate_step (env : Env) (big rest : String) (t : Tok) (pref : List Char)
    (hscan : scanRefs big.data.length big.data =
      t :: scanRefs rest.data.length rest.data)
    (ht : ∀ toks acc, replaceAll env (t :: toks) acc =
      (pref ++ (replaceAll env toks acc).1, (replaceAll env toks acc).2)) :
    interpolate_env_vars env big =
      match interpolate_env_vars env rest with
      | .ok s => .ok (String.mk (pref ++ s.data))
      | .error e => .error e := by
  rw [interpolate_eq env big, interpolate_eq env rest, hscan, ht]
  rcases hR : replaceAll env (scanRefs rest.data.length rest.data) none with ⟨out, reg⟩
  cases reg <;> rfl

/-- A text whose scan yields exactly one reference, to a defined variable,
interpolates to that variable's value. -/
theorem interpolate_single_ref (env : Env) (text X v : String)
    (hscan : scanRefs text.data.length text.data = [.ref X])
    (hv : env X = some v) :
    interpolate_env_vars env text = .ok v := by
  have hrep : replaceAll env [Tok.ref X] none = (v.data, none) := by
    simp [replaceAll, hv]
  simp only [interpolate_env_vars, hscan, hrep]

/-! ## C1: which undefined variable the interpolation error reports -/

/-- C1 (amended): if the text contains at least one reference to an
undefined variable, interpolation fails, and the error names the LAST
undefined variable encountered in left-to-right order (each undefined
occurrence having been substituted with the empty string during scanning).
The claim as frozen says the FIRST; the closure overwrites its register at
every undefined occurrence, so the last one survives. -/
theorem interpolate_reports_last_undefined (env : Env) (text : String) (n : String)
    (h : (undefinedRefList env text).getLast? = some n) :
    interpolate_env_vars env text = .error (.undefinedVar n) := by
  unfold undefinedRefList at h
  have hsnd := replaceAll_snd env (scanRefs text.data.length text.data) none
  rw [h] at hsnd
  simp only [interpolate_env_vars, hsnd]

/-- Witness for C1: in "x$P y$\x7bQ\x7dz" with an empty environment the
undefined references are P then Q, and the error names Q. -/
theorem interpolate_reports_last_undefined_witness :
    (undefinedRefList (fun _ => none) "x$P y$\x7bQ\x7dz").getLast? = some "Q" ∧
    interpolate_env_vars (fun _ => none) "x$P y$\x7bQ\x7dz" =
      .error (.undefinedVar "Q") :=
  ⟨rfl, interpolate_reports_last_undefined (fun _ => none) "x$P y$\x7bQ\x7dz" "Q" rfl⟩

/-- Counterexample for C1 as frozen: in "$A$B" with an empty environment the
first undefined variable encountered is "A" (the undefined references in
order are ["A", "B"]), yet the returned error names "B", not "A". -/
theorem interpolate_first_undefined_counterexample :
    undefinedRefList (fun _ => none) "$A$B" = ["A", "B"] ∧
    interpolate_env_vars (fun _ => none) "$A$B" = .error (.undefinedVar "B") ∧
    SfError.undefinedVar "B" ≠ SfError.undefinedVar "A" :=
  ⟨rfl, rfl, by decide⟩

/-! ## C4: the bare and braced forms resolve identically -/

/-- C4: for every identifier-shaped variable name X defined in the
environment, interpolating the bare form and the braced form both yield the
environment value of X. -/
theorem interpolate_bare_eq_braced (env : Env) (X v : String)
    (hX : isIdentName X = true) (hv : env X = some v) :
    interpolate_env_vars env ("$" ++ X) = .ok v ∧
    interpolate_env_vars env ("$\x7b" ++ X ++ "\x7d") = .ok v := by
  obtain ⟨c, cs, hd, hc, hall⟩ :
      ∃ c cs, X.data = c :: cs ∧ isIdentStart c = true ∧
        ∀ x ∈ cs, isIdentChar x = true := by
    unfold isIdentName at hX
    cases hdd : X.data with
    | nil => rw [hdd] at hX; exact absurd hX (by simp)
    | cons c cs =>
      rw [hdd] at hX
      simp only [Bool.and_eq_true, List.all_eq_true] at hX
      exact ⟨c, cs, rfl, hX.1, fun x hx => hX.2 x hx⟩
  have hmkX : String.mk (c :: cs) = X := by rw [← hd, string_mk_data]
  constructor
  · -- bare form
    have hdata : ("$" ++ X).data = '$' :: c :: cs := by
      rw [string_data_append, hd]; rfl
    refine interpolate_single_ref env _ X v ?_ hv
    rw [hdata]
    have hm := matchRef_bare c cs hc hall
    simp [scanRefs, hm, hmkX]
  · -- braced form
    have hdata : ("$\x7b" ++ X ++ "\x7d").data = '$' :: '{' :: c :: (cs ++ ['}']) := by
      rw [string_data_append, string_data_append, hd]
      simp
    refine interpolate_single_ref env _ X v ?_ hv
    rw [hdata]
    have hm := matchRef_braced c cs hc hall
    simp [scanRefs, hm, hmkX]

/-- Witness for C4 at X = "FOO" with value "bar". -/
theorem interpolate_bare_eq_braced_witness :
    interpolate_env_vars (fun n => if n = "FOO" then some "bar" else none)
        ("$" ++ "FOO") = .ok "bar" ∧
    interpolate_env_vars (fun n => if n = "FOO" then some "bar" else none)
        ("$\x7b" ++ "FOO" ++ "\x7d") = .ok "bar" :=
  interpolate_bare_eq_braced (fun n => if n = "FOO" then some "bar" else none)
    "FOO" "bar" rfl rfl

/-! ## C9: dollar signs that begin no valid reference pass through -/

/-- When the scanner finds no valid reference in the text, interpolation
succeeds and returns the text unchanged, for every environment. -/
theorem interpolate_no_refs_id (env : Env) (text : String)
    (h : hasEnvRef text = false) :
    interpolate_env_vars env text = .ok text := by
  have hscan : scanRefs text.data.length text.data = text.data.map .lit :=
    scanRefs_no_ref text.data.length text.data le_rfl h
  simp only [interpolate_env_vars, hscan, replaceAll_map_lit]

/-- C9, in three parts that together cover every input text, mixed texts
included. First: a character that does not begin a valid reference — any
non-dollar character, or a dollar sign after which no reference matches
(dollar before a non-identifier, lone trailing dollar, empty braced name,
unterminated braced name) — is left in the output unchanged, and the call
succeeds or fails exactly as it does on the rest of the text, with the same
error: such characters never cause a failure on their own account. Second:
a valid reference to a defined variable substitutes its value and the rest
of the text is processed identically, so the first part applies to invalid
dollar shapes anywhere in a text that also contains valid references.
Third, in particular: a text in which the scanner finds no valid reference
interpolates to itself, successfully. -/
theorem interpolate_invalid_dollar_pass_through :
    (∀ (env : Env) (c : Char) (cs : List Char), (c = '$' → matchRef cs = none) →
      interpolate_env_vars env (String.mk (c :: cs)) =
        match interpolate_env_vars env (String.mk cs) with
        | .ok s => .ok (String.mk (c :: s.data))
        | .error e => .error e) ∧
    (∀ (env : Env) (cs nm rest : List Char) (v : String),
      matchRef cs = some (nm, rest) → env (String.mk nm) = some v →
      interpolate_env_vars env (String.mk ('$' :: cs)) =
        match interpolate_env_vars env (String.mk rest) with
        | .ok s => .ok (String.mk (v.data ++ s.data))
        | .error e => .error e) ∧
    (∀ (env : Env) (text : String), hasEnvRef text = false →
      interpolate_env_vars env text = .ok text) := by
  refine ⟨?_, ?_, interpolate_no_refs_id⟩
  · intro env c cs h
    have hscan : scanRefs (String.mk (c :: cs)).data.length (String.mk (c :: cs)).data =
        .lit c :: scanRefs (String.mk cs).data.length (String.mk cs).data := by
      show scanRefs (c :: cs).length (c :: cs) = .lit c :: scanRefs cs.length cs
      by_cases hc : c = '$'
      · subst hc
        simp [scanRefs, h rfl]
      · simp [scanRefs, hc]
    exact interpolate_step env (String.mk (c :: cs)) (String.mk cs) (.lit c) [c]
      hscan (fun toks acc => rfl)
  · intro env cs nm rest v hm hv
    have hlt : rest.length < cs.length := matchRef_rest_length cs nm rest hm
    have hscan : scanRefs (String.mk ('$' :: cs)).data.length (String.mk ('$' :: cs)).data =
        .ref (String.mk nm) :: scanRefs (String.mk rest).data.length (String.mk rest).data := by
      have h1 : scanRefs (cs.length + 1) ('$' :: cs) =
          .ref (String.mk nm) :: scanRefs cs.length rest := by
        simp [scanRefs, hm]
      have h2 : scanRefs cs.length rest = scanRefs rest.length rest :=
        scanRefs_fuel_irrel cs.length rest.length rest (by omega) le_rfl
      show scanRefs (cs.length + 1) ('$' :: cs) = _
      rw [h1, h2]
    exact interpolate_step env (String.mk ('$' :: cs)) (String.mk rest)
      (.ref (String.mk nm)) v.data hscan (fun toks acc => by simp [replaceAll, hv])

/-- Witness for C9: with X defined as "val", the invalid shape "$1x" passes
through unchanged; the mixed text "$X $1" substitutes the valid reference
and leaves the invalid "$1" unchanged without failing; and a text made of
all four invalid shapes is returned unchanged. -/
theorem interpolate_invalid_dollar_pass_through_witness :
    interpolate_env_vars (fun n => if n = "X" then some "val" else none) "$1x" =
      .ok "$1x" ∧
    interpolate_env_vars (fun n => if n = "X" then some "val" else none) "$X $1" =
      .ok "val $1" ∧
    interpolate_env_vars (fun n => if n = "X" then some "val" else none)
        "$1 $ $\x7b\x7d $\x7bNAME end$" = .ok "$1 $ $\x7b\x7d $\x7bNAME end$" :=
  ⟨(interpolate_invalid_dollar_pass_through.1
      (fun n => if n = "X" then some "val" else none) '$' "1x".data
      (fun _ => rfl)).trans rfl,
   (interpolate_invalid_dollar_pass_through.2.1
      (fun n => if n = "X" then some "val" else none) "X $1".data
      "X".data " $1".data "val" rfl rfl).trans rfl,
   interpolate_invalid_dollar_pass_through.2.2
      (fun n => if n = "X" then some "val" else none) _ rfl⟩

/-! ## Helper lemmas about the line loop of Secretfile::read -/

theorem lineOk_of_noMatch (env : Env) (l : String) (hm : matchLine l = .noMatch) :
    lineOk env l = false := by
  unfold lineOk
  rw [hm]

theorem lineOk_of_entry (env : Env) (l n p k : String)
    (hm : matchLine l = .entry n p k) :
    lineOk env l =
      match interpolate_env_vars env p with
      | .ok _ => true
      | .error _ => false := by
  unfold lineOk
  rw [hm]

theorem lineErr_of_blank (env : Env) (l : String) (hm : matchLine l = .blank) :
    lineErr env l = none := by
  unfold lineErr
  rw [hm]

theorem lineErr_of_noMatch (env : Env) (l : String) (hm : matchLine l = .noMatch) :
    lineErr env l = some (.malformedLine l) := by
  unfold lineErr
  rw [hm]

theorem lineErr_of_entry (env : Env) (l n p k : String)
    (hm : matchLine l = .entry n p k) :
    lineErr env l =
      match interpolate_env_vars env p with
      | .ok _ => none
      | .error e => some e := by
  unfold lineErr
  rw [hm]

/-- When every line processes without error, the line loop succeeds and the
resulting map is the left fold of the per-line effects. -/
theorem readFrom_ok (env : Env) :
    ∀ (lines : List String) (m : String → Option Location),
      (∀ l ∈ lines, lineOk env l = true) →
      readFrom env lines ⟨m⟩ = .ok ⟨lines.foldl (applyLine env) m⟩ := by
  intro lines
  induction lines with
  | nil => intro m _; rfl
  | cons l rest ih =>
    intro m hok
    have hl : lineOk env l = true := hok l (by simp)
    have hrest : ∀ x ∈ rest, lineOk env x = true := fun x hx => hok x (by simp [hx])
    cases hm : matchLine l with
    | blank =>
      have happ : applyLine env m l = m := by simp [applyLine, hm]
      have hstep : readFrom env (l :: rest) ⟨m⟩ = readFrom env rest ⟨m⟩ := by
        simp [readFrom, hm]
      rw [hstep, List.foldl_cons, happ]
      exact ih m hrest
    | noMatch =>
      rw [lineOk_of_noMatch env l hm] at hl
      simp at hl
    | entry n p k =>
      rw [lineOk_of_entry env l n p k hm] at hl
      cases hip : interpolate_env_vars env p with
      | error e => rw [hip] at hl; simp at hl
      | ok ip =>
        have happ : applyLine env m l = insertMapping m n (.Keyed ip k) := by
          simp [applyLine, hm, hip]
        have hstep : readFrom env (l :: rest) ⟨m⟩ =
            readFrom env rest ⟨insertMapping m n (.Keyed ip k)⟩ := by
          simp [readFrom, hm, hip]
        rw [hstep, List.foldl_cons, happ]
        exact ih _ hrest

/-- Lines declaring no entry for the name n leave its mapping unchanged. -/
theorem foldl_applyLine_other (env : Env) (n : String) :
    ∀ (lines : List String) (m : String → Option Location),
      (∀ l ∈ lines, entryName l ≠ some n) →
      lines.foldl (applyLine env) m n = m n := by
  intro lines
  induction lines with
  | nil => intro m _; rfl
  | cons l rest ih =>
    intro m hno
    rw [List.foldl_cons, ih _ (fun x hx => hno x (by simp [hx]))]
    cases hm : matchLine l with
    | blank => simp [applyLine, hm]
    | noMatch => simp [applyLine, hm]
    | entry n' p k =>
      cases hip : interpolate_env_vars env p with
      | error e => simp [applyLine, hm, hip]
      | ok ip =>
        have hne : ¬(n = n') := fun he => hno l (by simp) (by simp [entryName, hm, he])
        simp [applyLine, hm, hip, insertMapping, hne]

/-- Looking up n after reading lines in which the last entry declaring n is
the distinguished line l. -/
theorem read_get_core (env : Env) (pre post : List String) (l : String)
    (n p k ip : String)
    (hok : ∀ x ∈ pre ++ l :: post, lineOk env x = true)
    (hl : matchLine l = .entry n p k)
    (hip : interpolate_env_vars env p = .ok ip)
    (hpost : ∀ x ∈ post, entryName x ≠ some n) :
    ∃ sf, Secretfile.read (pre ++ l :: post) env = .ok sf ∧
      sf.get n = some (.Keyed ip k) := by
  refine ⟨⟨(pre ++ l :: post).foldl (applyLine env) (fun _ => none)⟩,
    readFrom_ok env _ _ hok, ?_⟩
  show (pre ++ l :: post).foldl (applyLine env) (fun _ => none) n = _
  rw [List.foldl_append, List.foldl_cons,
    foldl_applyLine_other env n post _ hpost]
  have happ : applyLine env (pre.foldl (applyLine env) (fun _ => none)) l =
      insertMapping (pre.foldl (applyLine env) (fun _ => none)) n (.Keyed ip k) := by
    simp [applyLine, hl, hip]
  rw [happ]
  simp [insertMapping]

/-- The line loop returns the error of the first failing line, whatever
state it carries and whatever lines follow. -/
theorem readFrom_error (env : Env) (l : String) (e : SfError) (post : List String) :
    ∀ (pre : List String) (sf : Secretfile),
      (∀ x ∈ pre, lineOk env x = true) →
      lineErr env l = some e →
      readFrom env (pre ++ l :: post) sf = .error e := by
  intro pre
  induction pre with
  | nil =>
    intro sf _ herr
    cases hm : matchLine l with
    | blank =>
      rw [lineErr_of_blank env l hm] at herr
      simp at herr
    | noMatch =>
      rw [lineErr_of_noMatch env l hm] at herr
      simp only [Option.some.injEq] at herr
      simp [readFrom, hm, herr]
    | entry n p k =>
      rw [lineErr_of_entry env l n p k hm] at herr
      cases hip : interpolate_env_vars env p with
      | ok ip => rw [hip] at herr; simp at herr
      | error e2 =>
        rw [hip] at herr
        simp only [Option.some.injEq] at herr
        simp [readFrom, hm, hip, herr]
  | cons x pre ih =>
    intro sf hok herr
    have hx : lineOk env x = true := hok x (by simp)
    have hpre : ∀ y ∈ pre, lineOk env y = true := fun y hy => hok y (by simp [hy])
    cases hm : matchLine x with
    | blank =>
      have hstep : readFrom env ((x :: pre) ++ l :: post) sf =
          readFrom env (pre ++ l :: post) sf := by
        simp [readFrom, hm]
      rw [hstep]
      exact ih sf hpre herr
    | noMatch =>
      rw [lineOk_of_noMatch env x hm] at hx
      simp at hx
    | entry n p k =>
      rw [lineOk_of_entry env x n p k hm] at hx
      cases hip : interpolate_env_vars env p with
      | error e2 => rw [hip] at hx; simp at hx
      | ok ip =>
        have hstep : readFrom env ((x :: pre) ++ l :: post) sf =
            readFrom env (pre ++ l :: post)
              ⟨insertMapping sf.mappings n (.Keyed ip k)⟩ := by
          simp [readFrom, hm, hip]
        rw [hstep]
        exact ih _ hpre herr

/-- Every mapping present after a successful run of the line loop was either
present at the start or produced by one of the processed lines. -/
theorem readFrom_provenance (env : Env) :
    ∀ (lines : List String) (sf sf' : Secretfile),
      readFrom env lines sf = .ok sf' →
      ∀ x loc, sf'.mappings x = some loc →
        sf.mappings x = some loc ∨
          ∃ l ∈ lines, ∃ p k ip, matchLine l = .entry x p k ∧
            interpolate_env_vars env p = .ok ip ∧ loc = .Keyed ip k := by
  intro lines
  induction lines with
  | nil =>
    intro sf sf' hread x loc hx
    have hsf : sf = sf' := by
      have : Except.ok (ε := SfError) sf = .ok sf' := hread
      exact Except.ok.inj this
    exact .inl (hsf ▸ hx)
  | cons l rest ih =>
    intro sf sf' hread x loc hx
    cases hm : matchLine l with
    | blank =>
      have hread' : readFrom env rest sf = .ok sf' := by
        simpa [readFrom, hm] using hread
      rcases ih sf sf' hread' x loc hx with h | ⟨l', hl', hr⟩
      · exact .inl h
      · exact .inr ⟨l', by simp [hl'], hr⟩
    | noMatch => simp [readFrom, hm] at hread
    | entry n p k =>
      cases hip : interpolate_env_vars env p with
      | error e => simp [readFrom, hm, hip] at hread
      | ok ip =>
        have hread' : readFrom env rest
            ⟨insertMapping sf.mappings n (.Keyed ip k)⟩ = .ok sf' := by
          simpa [readFrom, hm, hip] using hread
        rcases ih _ sf' hread' x loc hx with h | ⟨l', hl', hr⟩
        · by_cases hxn : x = n
          · subst hxn
            have hloc : loc = .Keyed ip k := by
              simp [insertMapping] at h
              exact h.symm
            exact .inr ⟨l, by simp, p, k, ip, hm, hip, hloc⟩
          · exact .inl (by simpa [insertMapping, hxn] using h)
        · exact .inr ⟨l', by simp [hl'], hr⟩

/-- Leading whitespace is skipped by the blank-or-comment alternative. -/
theorem isBlankOrComment_ws_skip (w : List Char) (l : List Char)
    (hws : ∀ x ∈ w, isWs x = true) :
    isBlankOrComment (w ++ l) = isBlankOrComment l := by
  induction w with
  | nil => rfl
  | cons a w' ih =>
    have ha : isWs a = true := hws a (by simp)
    have h' := ih fun x hx => hws x (by simp [hx])
    simp [isBlankOrComment, ha, h']

/-! ## C2: all-or-nothing parsing, stopping at the first error -/

/-- C2: if a line fails (grammar mismatch or interpolation failure) and
every line before it processes successfully, Secretfile::read returns that
line's error; no table is returned, so every entry built from earlier lines
is discarded and never exposed to the caller. -/
theorem read_stops_at_first_error (env : Env) (pre post : List String)
    (l : String) (e : SfError)
    (hpre : ∀ x ∈ pre, lineOk env x = true)
    (herr : lineErr env l = some e) :
    Secretfile.read (pre ++ l :: post) env = .error e :=
  readFrom_error env l e post pre ⟨fun _ => none⟩ hpre herr

/-- Witness for C2: one good line, then a malformed line, then another good
line; read returns the malformed-line error. -/
theorem read_stops_at_first_error_witness :
    (∀ x ∈ ["GOOD a:b"], lineOk (fun _ => none) x = true) ∧
    lineErr (fun _ => none) "BAD" = some (.malformedLine "BAD") ∧
    Secretfile.read (["GOOD a:b"] ++ "BAD" :: ["LATER x:y"]) (fun _ => none) =
      .error (.malformedLine "BAD") :=
  ⟨by decide, rfl,
    read_stops_at_first_error (fun _ => none) ["GOOD a:b"] ["LATER x:y"] "BAD"
      (.malformedLine "BAD") (by decide) rfl⟩

/-! ## C3: valid entry lines produce the expected lookups -/

/-- C3: for an input consisting of lines that each match the entry grammar
with a path that interpolates successfully, and whose declared names are
pairwise distinct, parsing succeeds and looking up each declared NAME yields
Keyed(interpolated PATH, KEY), the key stored verbatim. -/
theorem read_valid_entries_lookup (env : Env) (lines : List String)
    (hok : ∀ l ∈ lines, ∃ n p k, matchLine l = .entry n p k ∧
      ∃ ip, interpolate_env_vars env p = .ok ip)
    (hnd : (lines.filterMap entryName).Nodup) :
    ∃ sf, Secretfile.read lines env = .ok sf ∧
      ∀ l ∈ lines, ∀ n p k, matchLine l = .entry n p k →
        ∀ ip, interpolate_env_vars env p = .ok ip →
          sf.get n = some (.Keyed ip k) := by
  have hok' : ∀ l ∈ lines, lineOk env l = true := by
    intro l hl
    obtain ⟨n, p, k, hm, ip, hip⟩ := hok l hl
    simp [lineOk, hm, hip]
  refine ⟨⟨lines.foldl (applyLine env) (fun _ => none)⟩,
    readFrom_ok env _ _ hok', ?_⟩
  intro l hl n p k hm ip hip
  obtain ⟨pre, post, rfl⟩ := List.append_of_mem hl
  have hpost : ∀ x ∈ post, entryName x ≠ some n := by
    intro x hx he
    have h1 : (pre ++ l :: post).filterMap entryName =
        pre.filterMap entryName ++ n :: post.filterMap entryName := by
      simp [List.filterMap_append, List.filterMap_cons, entryName, hm]
    rw [h1] at hnd
    have h2 : (n :: post.filterMap entryName).Nodup := hnd.of_append_right
    exact (List.nodup_cons.mp h2).1 (List.mem_filterMap.mpr ⟨x, hx, he⟩)
  show (pre ++ l :: post).foldl (applyLine env) (fun _ => none) n = _
  rw [List.foldl_append, List.foldl_cons,
    foldl_applyLine_other env n post _ hpost]
  simp [applyLine, hm, hip, insertMapping]

/-- Witness for C3: the concrete scenario of the source's own test. -/
theorem read_valid_entries_lookup_witness :
    ∃ sf, Secretfile.read
        ["FOO_USERNAME secret/$SECRET_NAME:username",
         "FOO_PASSWORD secret/$\x7bSECRET_NAME\x7d:password"]
        (fun n => if n = "SECRET_NAME" then some "foo" else none) = .ok sf ∧
      sf.get "FOO_USERNAME" = some (.Keyed "secret/foo" "username") ∧
      sf.get "FOO_PASSWORD" = some (.Keyed "secret/foo" "password") := by
  obtain ⟨sf, hread, hget⟩ := read_valid_entries_lookup
    (fun n => if n = "SECRET_NAME" then some "foo" else none)
    ["FOO_USERNAME secret/$SECRET_NAME:username",
     "FOO_PASSWORD secret/$\x7bSECRET_NAME\x7d:password"]
    (by
      intro l hl
      simp only [List.mem_cons, List.not_mem_nil, or_false] at hl
      rcases hl with rfl | rfl
      · exact ⟨"FOO_USERNAME", "secret/$SECRET_NAME", "username", rfl, "secret/foo", rfl⟩
      · exact ⟨"FOO_PASSWORD", "secret/$\x7bSECRET_NAME\x7d", "password", rfl,
          "secret/foo", rfl⟩)
    (by decide)
  exact ⟨sf, hread,
    hget "FOO_USERNAME secret/$SECRET_NAME:username" (by simp)
      "FOO_USERNAME" "secret/$SECRET_NAME" "username" rfl "secret/foo" rfl,
    hget "FOO_PASSWORD secret/$\x7bSECRET_NAME\x7d:password" (by simp)
      "FOO_PASSWORD" "secret/$\x7bSECRET_NAME\x7d" "password" rfl "secret/foo" rfl⟩

/-! ## C5: duplicate names, last entry line wins -/

/-- C5: when two entry lines declare the same NAME (and every line of the
input processes successfully), parsing succeeds without any duplicate-key
error and looking up NAME yields the location of the later line, the
insertion having overwritten the earlier entry. -/
theorem read_duplicate_name_last_wins (env : Env) (pre mid post : List String)
    (l1 l2 : String) (n p1 k1 p2 k2 ip2 : String)
    (hok : ∀ x ∈ pre ++ l1 :: mid ++ l2 :: post, lineOk env x = true)
    (_h1 : matchLine l1 = .entry n p1 k1)
    (h2 : matchLine l2 = .entry n p2 k2)
    (hip2 : interpolate_env_vars env p2 = .ok ip2)
    (hpost : ∀ x ∈ post, entryName x ≠ some n) :
    ∃ sf, Secretfile.read (pre ++ l1 :: mid ++ l2 :: post) env = .ok sf ∧
      sf.get n = some (.Keyed ip2 k2) := by
  have hre : pre ++ l1 :: mid ++ l2 :: post = (pre ++ l1 :: mid) ++ l2 :: post := by
    simp
  rw [hre] at hok ⊢
  exact read_get_core env (pre ++ l1 :: mid) post l2 n p2 k2 ip2 hok h2 hip2 hpost

/-- Witness for C5: two entries for A; the lookup yields the second. -/
theorem read_duplicate_name_last_wins_witness :
    ∃ sf, Secretfile.read ([] ++ "A x:1" :: [] ++ "A y:2" :: []) (fun _ => none) =
        .ok sf ∧ sf.get "A" = some (.Keyed "y" "2") :=
  read_duplicate_name_last_wins (fun _ => none) [] [] [] "A x:1" "A y:2"
    "A" "x" "1" "y" "2" "y" (by decide) rfl rfl rfl (by simp)

/-! ## C7: lines matching neither alternative -/

/-- C7: a line matching neither the blank-or-comment nor the entry
alternative makes Secretfile::read fail at that line with a malformed-line
error whose message carries the offending raw line text. -/
theorem read_malformed_line_error (env : Env) (line : String) (rest : List String)
    (h : matchLine line = .noMatch) :
    Secretfile.read (line :: rest) env = .error (.malformedLine line) ∧
    (SfError.malformedLine line).message =
      "Error parsing Secretfile line: " ++ line := by
  constructor
  · show readFrom env (line :: rest) _ = _
    simp [readFrom, h]
  · rfl

/-- Witness for C7 on the spec's concrete malformed line. -/
theorem read_malformed_line_error_witness :
    Secretfile.read ["BAD_LINE something-without-colon"] (fun _ => none) =
      .error (.malformedLine "BAD_LINE something-without-colon") ∧
    (SfError.malformedLine "BAD_LINE something-without-colon").message =
      "Error parsing Secretfile line: " ++ "BAD_LINE something-without-colon" :=
  read_malformed_line_error (fun _ => none) "BAD_LINE something-without-colon" [] rfl

/-! ## C8: where stored paths come from -/

/-- C8 (amended): whenever construction succeeds, every Keyed location in
the table was produced by some input line: its stored path is the result of
a successful interpolation of that line's declared PATH (so every reference
of the declared PATH was substituted), and its key is stored verbatim. The
frozen claim's stronger reading — that no reference-shaped text remains in
any stored path for every environment — fails, because substituted values
are inserted verbatim and may themselves contain such text. -/
theorem stored_path_interpolated (env : Env) (lines : List String)
    (sf : Secretfile) (n p k : String)
    (hread : Secretfile.read lines env = .ok sf)
    (hget : sf.get n = some (.Keyed p k)) :
    ∃ l ∈ lines, ∃ src, matchLine l = .entry n src k ∧
      interpolate_env_vars env src = .ok p := by
  rcases readFrom_provenance env lines _ sf hread n _ hget with h | ⟨l, hl, src, k', ip, hm, hip, heq⟩
  · simp at h
  · injection heq with h1 h2
    subst h1
    subst h2
    exact ⟨l, hl, src, hm, hip⟩

/-- Witness for C8: in the table parsed from "A x:y" the stored path "x" is
the interpolation of the declared path of that line. -/
theorem stored_path_interpolated_witness :
    ∃ l ∈ ["A x:y"], ∃ src, matchLine l = .entry "A" src "y" ∧
      interpolate_env_vars (fun _ => none) src = .ok "x" :=
  stored_path_interpolated (fun _ => none) ["A x:y"]
    ⟨insertMapping (fun _ => none) "A" (.Keyed "x" "y")⟩ "A" "x" "y" rfl rfl

/-- Counterexample for C8 as frozen: with X defined as the text "$Y", the
line "A $\x7bX\x7d:k" parses successfully and stores the path "$Y", in
which the scanner still finds a reference — reference-shaped text does
remain in a stored path for this environment. -/
theorem stored_path_ref_counterexample :
    (Secretfile.read ["A $\x7bX\x7d:k"]
        (fun n => if n = "X" then some "$Y" else none)).map (fun sf => sf.get "A") =
      .ok (some (.Keyed "$Y" "k")) ∧
    hasEnvRef "$Y" = true :=
  ⟨rfl, rfl⟩

/-! ## C10: leading whitespace before an entry-shaped line -/

/-- C10: a line of nonempty leading whitespace followed by text that starts
with neither a hash character nor whitespace matches neither alternative
(the entry alternative is anchored at the start of the line), so read fails
with a malformed-line error carrying the line. -/
theorem leading_ws_line_malformed (env : Env) (w : List Char) (c : Char)
    (rest : List Char) (hw : w ≠ []) (hws : ∀ x ∈ w, isWs x = true)
    (hc : isWs c = false) (hh : c ≠ '#') :
    matchLine (String.mk (w ++ c :: rest)) = .noMatch ∧
    Secretfile.read [String.mk (w ++ c :: rest)] env =
      .error (.malformedLine (String.mk (w ++ c :: rest))) := by
  have hblank : isBlankOrComment (w ++ c :: rest) = false := by
    rw [isBlankOrComment_ws_skip w _ hws]
    simp [isBlankOrComment, hc, hh]
  have hentry : matchEntry (w ++ c :: rest) = none := by
    obtain ⟨w0, w', rfl⟩ : ∃ w0 w', w = w0 :: w' := by
      cases w with
      | nil => exact absurd rfl hw
      | cons a b => exact ⟨a, b, rfl⟩
    have hw0 : isWs w0 = true := hws w0 (by simp)
    have hspan : List.span (fun x => !isWs x) (w0 :: (w' ++ c :: rest)) =
        ([], w0 :: (w' ++ c :: rest)) := by
      rw [List.span_eq_take_drop, List.takeWhile_cons_of_neg (by simp [hw0]),
        List.dropWhile_cons_of_neg (by simp [hw0])]
    unfold matchEntry
    rw [List.cons_append, hspan]
    simp
  have hline : matchLine (String.mk (w ++ c :: rest)) = .noMatch := by
    unfold matchLine
    simp [hblank, hentry]
  refine ⟨hline, ?_⟩
  show readFrom env _ _ = _
  simp [readFrom, hline]

/-- Witness for C10 on the line "  FOO path:key". -/
theorem leading_ws_line_malformed_witness :
    Secretfile.read [String.mk ([' ', ' '] ++ 'F' :: "OO path:key".data)]
        (fun _ => none) =
      .error (.malformedLine (String.mk ([' ', ' '] ++ 'F' :: "OO path:key".data))) :=
  (leading_ws_line_malformed (fun _ => none) [' ', ' '] 'F' "OO path:key".data
    (by decide) (by decide) (by decide) (by decide)).2

/-! ## C6: where the path/key split happens in the second token -/

/-- The colon search of the entry pattern: the split it finds is at the
first colon that has a nonempty remainder after it, the part before the
colon is minimal among all colon decompositions, and the key is the whole
remainder. -/
theorem splitColon_spec :
    ∀ (l q k : List Char), splitColon l = some (q, k) →
      k ≠ [] ∧ q ++ ':' :: k = l ∧
        ∀ q' k', q' ++ ':' :: k' = l → q.length ≤ q'.length := by
  intro l
  induction l with
  | nil => intro q k h; simp [splitColon] at h
  | cons c cs ih =>
    intro q k h
    by_cases hc : c = ':'
    · subst hc
      cases hcs : cs.isEmpty with
      | true =>
        have hval : splitColon (':' :: cs) = none := by simp [splitColon, hcs]
        rw [hval] at h
        simp at h
      | false =>
        have hval : splitColon (':' :: cs) = some ([], cs) := by
          simp [splitColon, hcs]
        rw [hval] at h
        simp only [Option.some.injEq, Prod.mk.injEq] at h
        obtain ⟨hq, hk⟩ := h
        subst hq
        subst hk
        exact ⟨fun he => by simp [he] at hcs, rfl, fun q' k' _ => Nat.zero_le _⟩
    · rw [splitColon] at h
      rw [if_neg hc] at h
      cases hm : splitColon cs with
      | none => rw [hm] at h; simp at h
      | some r =>
        rw [hm] at h
        simp only [Option.map_some', Option.some.injEq, Prod.mk.injEq] at h
        obtain ⟨hq, hk⟩ := h
        obtain ⟨hk', heq, hmin⟩ := ih r.1 r.2 (by rw [hm])
        subst hq
        subst hk
        refine ⟨hk', by simp [heq], ?_⟩
        intro q' k' hdec
        cases q' with
        | nil =>
          simp only [List.nil_append, List.cons.injEq] at hdec
          exact absurd hdec.1.symm hc
        | cons a q'' =>
          simp only [List.cons_append, List.cons.injEq] at hdec
          have := hmin q'' k' hdec.2
          simp only [List.length_cons]
          omega

/-- C6 (amended): when the entry pattern splits the second token into PATH
and KEY, the split is at the first colon of the token that has at least one
character before it and at least one character after it: PATH is the
(nonempty) text before that colon, KEY is everything after it to the end of
the token, and no colon decomposition with a nonempty part before the colon
puts the split earlier. The frozen claim's split at the very first colon of
the token fails when the token begins with a colon. -/
theorem splitTok_first_valid_colon (T p k : List Char)
    (h : splitTok T = some (p, k)) :
    p ≠ [] ∧ k ≠ [] ∧ p ++ ':' :: k = T ∧
      ∀ p' k', p' ≠ [] → p' ++ ':' :: k' = T → p.length ≤ p'.length := by
  cases T with
  | nil => simp [splitTok] at h
  | cons c cs =>
    rw [splitTok] at h
    cases hm : splitColon cs with
    | none => rw [hm] at h; simp at h
    | some r =>
      rw [hm] at h
      simp only [Option.map_some', Option.some.injEq, Prod.mk.injEq] at h
      obtain ⟨hq, hk⟩ := h
      obtain ⟨hk', heq, hmin⟩ := splitColon_spec cs r.1 r.2 (by rw [hm])
      subst hq
      subst hk
      refine ⟨by simp, hk', by simp [heq], ?_⟩
      intro p' k' hne hdec
      cases p' with
      | nil => exact absurd rfl hne
      | cons a p'' =>
        simp only [List.cons_append, List.cons.injEq] at hdec
        have := hmin p'' k' hdec.2
        simp only [List.length_cons]
        omega

/-- Witness for C6 (amended) on the token "b:c". -/
theorem splitTok_first_valid_colon_witness :
    ['b'] ≠ ([] : List Char) ∧ ['c'] ≠ ([] : List Char) ∧
    ['b'] ++ ':' :: ['c'] = ['b', ':', 'c'] ∧
    ∀ p' k', p' ≠ [] → p' ++ ':' :: k' = ['b', ':', 'c'] →
      (['b'] : List Char).length ≤ p'.length :=
  splitTok_first_valid_colon ['b', ':', 'c'] ['b'] ['c'] rfl

/-- Counterexample for C6 as frozen: the line "A :b:c" has a second token
with nothing before its first colon, yet it matches the entry grammar, and
the split is at the token's second colon (path ":b", key "c"), not its
first. -/
theorem entry_colon_first_counterexample :
    matchLine "A :b:c" = .entry "A" ":b" "c" ∧
    splitTok [':', 'b', ':', 'c'] = some ([':', 'b'], ['c']) :=
  ⟨rfl, rfl⟩

end Credentials
